import Mathlib

set_option linter.unusedVariables false

/-! Verification development for the field-type conversion engine of a
file-system content source (`content-source.ts`): the forward converter
from raw records to typed document fields (`convertFields` /
`convertFieldType`), the reverse mapper from typed update operations back
to raw values (`mapUpdateOperationToValue`), and the document
update/convert glue (`updateDocument`, `convertDocument`).  File I/O
(reading, parsing and writing the underlying files) is external to the
engine and is abstracted: the parsed raw record is a parameter. -/

/-- A raw JavaScript value as parsed from a content file: scalars, arrays
and string-keyed objects, plus `null` and `undefined`.  Raw strings are
treated as atomic scalars: the JavaScript quirks that expose a string's
characters (`for..of` iteration, rest destructuring, indexed access)
are outside this data model — on such inputs the source can even
recurse forever, so no total model can follow it there. -/
inductive RawValue where
  | str (s : String)
  | num (n : Int)
  | bool (b : Bool)
  | null
  | undefined
  | arr (items : List RawValue)
  | obj (entries : List (String × RawValue))

mutual

/-- Structural size of a raw value, the termination measure of the
converter. -/
def RawValue.size : RawValue → Nat
  | .arr xs => 1 + RawValue.sizeArr xs
  | .obj kvs => 1 + RawValue.sizeEntries kvs
  | _ => 1

def RawValue.sizeArr : List RawValue → Nat
  | [] => 0
  | x :: xs => 1 + RawValue.size x + RawValue.sizeArr xs

def RawValue.sizeEntries : List (String × RawValue) → Nat
  | [] => 0
  | (_, v) :: es => 1 + RawValue.size v + RawValue.sizeEntries es

end

theorem RawValue.size_pos (v : RawValue) : 0 < v.size := by
  cases v <;> simp [RawValue.size]

theorem RawValue.sizeArr_cons (x : RawValue) (xs : List RawValue) :
    RawValue.sizeArr (x :: xs) = 1 + x.size + RawValue.sizeArr xs := rfl

theorem RawValue.sizeEntries_cons (e : String × RawValue) (es : List (String × RawValue)) :
    RawValue.sizeEntries (e :: es) = 1 + e.2.size + RawValue.sizeEntries es := by
  obtain ⟨k, v⟩ := e; rfl

theorem RawValue.sizeEntries_filter_le (p : String × RawValue → Bool)
    (es : List (String × RawValue)) :
    RawValue.sizeEntries (es.filter p) ≤ RawValue.sizeEntries es := by
  induction es with
  | nil => simp [List.filter]
  | cons e es ih =>
    obtain ⟨k, v⟩ := e
    by_cases h : p (k, v) <;>
      simp [List.filter, h, RawValue.sizeEntries] <;> omega

/-- JavaScript truthiness of a raw value (the converter's `!fieldValue`
tests). -/
def RawValue.isFalsy : RawValue → Bool
  | .null => true
  | .undefined => true
  | .bool b => !b
  | .num n => n == 0
  | .str s => s == ""
  | .arr _ => false
  | .obj _ => false

mutual

/-- JavaScript string coercion of a value used as a property key
(registry lookups such as `modelMap[modelType]`). -/
def toPropKey : RawValue → String
  | .str s => s
  | .num n => toString n
  | .bool b => if b then "true" else "false"
  | .null => "null"
  | .undefined => "undefined"
  | .arr xs => toPropKeyList xs
  | .obj _ => "[object Object]"

def toPropKeyList : List RawValue → String
  | [] => ""
  | [x] => toPropKeyElem x
  | x :: xs => toPropKeyElem x ++ "," ++ toPropKeyList xs

def toPropKeyElem : RawValue → String
  | .null => ""
  | .undefined => ""
  | v => toPropKey v

end

/-- Canonical array-index strings, mirroring lodash `isIndex` and the
JavaScript array index coercion: only `0` or `[1-9][0-9]*` address
elements. -/
def parseIndex? (s : String) : Option Nat :=
  match s.toNat? with
  | some n => if toString n = s then some n else none
  | none => none

/-- One step of a lodash field path (`fieldPath` entries are strings or
numbers). -/
inductive PKey where
  | str (s : String)
  | idx (n : Nat)
deriving DecidableEq

/-- lodash `toKey`: every path step is used as a property-key string. -/
def PKey.propKey : PKey → String
  | .str s => s
  | .idx n => toString n

/-- Lookup in a string-keyed association list (JavaScript property
read). -/
def findAssoc (l : List (String × α)) (key : String) : Option α :=
  (l.find? (fun e => e.1 == key)).map (·.2)

/-- JavaScript property assignment on a plain object: replace an
existing key in place, or append a new key in insertion order. -/
def setAssoc (l : List (String × α)) (key : String) (x : α) : List (String × α) :=
  match l with
  | [] => [(key, x)]
  | e :: rest => if e.1 = key then (key, x) :: rest else e :: setAssoc rest key x

mutual

/-- A field specification: the `type` tag together with the
type-specific attributes the converter reads (`items` of a `list`,
nested `fields` of an `object`, allowed `models` of a `model`).
Attributes absent from the schema are `none` / the empty list. -/
inductive FieldSpec where
  | mk (type : String) (items : Option FieldItems) (fields : List NamedField)
       (models : List String)

/-- A list field's `items` attribute: a single item spec, or an array of
specs (used by the reverse mapper's polymorphic-list resolution). -/
inductive FieldItems where
  | one (spec : FieldSpec)
  | many (specs : List FieldSpec)

/-- A named field of a model or object spec (`Field`). -/
inductive NamedField where
  | mk (name : String) (spec : FieldSpec)

end

def FieldSpec.type : FieldSpec → String
  | .mk t _ _ _ => t

def FieldSpec.items : FieldSpec → Option FieldItems
  | .mk _ i _ _ => i

def FieldSpec.fields : FieldSpec → List NamedField
  | .mk _ _ f _ => f

def FieldSpec.models : FieldSpec → List String
  | .mk _ _ _ m => m

def NamedField.name : NamedField → String
  | .mk n _ => n

def NamedField.spec : NamedField → FieldSpec
  | .mk _ s => s

/-- Source `fields.find(f => f.name === name)`. -/
def findNamed (fields : List NamedField) (name : String) : Option NamedField :=
  fields.find? (fun f => f.name == name)

/-- The default item spec of a list (`{ type: 'string' }`). -/
def stringSpec : FieldSpec := .mk "string" none [] []

/-- A registry model `{ name, fields }`; an absent `fields` property
(`model.fields ?? []`) is the empty list. -/
structure ModelDef where
  name : String
  fields : List NamedField

/-- The model registry (`ModelMap`): model type name to model. -/
abbrev ModelMap := List (String × ModelDef)

def lookupModel (modelMap : ModelMap) (key : String) : Option ModelDef :=
  findAssoc modelMap key

/-- The fourteen scalar-like tags of `convertFieldType`'s grouped switch
cases, each wrapped verbatim as `{ value, type }`. -/
def scalarTypeTags : List String :=
  ["string", "slug", "text", "html", "url", "boolean", "number", "date",
   "datetime", "enum", "json", "style", "color", "markdown"]

/-- Every type tag with a switch case in `convertFieldType`; any other
tag falls to the `default` branch and throws. -/
def supportedTypeTags : List String :=
  scalarTypeTags ++ ["list", "object", "model", "reference", "image"]

/-- Runtime failures of the engine.  `unsupported` is the thrown
`Error('Unsupported type: ' + type)`; `typeError` stands for a JavaScript
`TypeError` (destructuring `null`/`undefined`, `for..of` or spread over a
non-iterable, `path.parse` of a non-string, reading a property of
`undefined`); `referenceError` is the temporal-dead-zone access of a
`const` binding before its initialization. -/
inductive JsErr where
  | unsupported (tag : String)
  | typeError
  | referenceError
deriving DecidableEq

/-- Index-keyed entries of an array (`{...[a, b]}` is `{ 0: a, 1: b }`). -/
def RawValue.indexedEntries (i : Nat) : List RawValue → List (String × RawValue)
  | [] => []
  | x :: xs => (toString i, x) :: RawValue.indexedEntries (i + 1) xs

/-- Own enumerable string-keyed properties of a value, as seen by
`Object.entries` and by rest destructuring (`const { id, type, ...fields }`).
`null` and `undefined` cannot be destructured (`TypeError`); arrays
expose their elements under index keys; numbers and booleans have none.
(String character properties are outside the model; see `RawValue`.) -/
def jsEntries : RawValue → Except JsErr (List (String × RawValue))
  | .null => .error .typeError
  | .undefined => .error .typeError
  | .obj kvs => .ok kvs
  | .arr xs => .ok (RawValue.indexedEntries 0 xs)
  | _ => .ok []

theorem RawValue.sizeEntries_indexedEntries (xs : List RawValue) :
    ∀ i, RawValue.sizeEntries (RawValue.indexedEntries i xs) = RawValue.sizeArr xs := by
  induction xs with
  | nil => intro i; rfl
  | cons x xs ih =>
    intro i
    simp [RawValue.indexedEntries, RawValue.sizeEntries, RawValue.sizeArr, ih]

theorem jsEntries_size {v : RawValue} {es : List (String × RawValue)}
    (h : jsEntries v = .ok es) : RawValue.sizeEntries es < v.size := by
  cases v with
  | arr xs =>
    simp only [jsEntries, Except.ok.injEq] at h
    rw [← h, RawValue.sizeEntries_indexedEntries]
    simp [RawValue.size]
  | _ => simp_all [jsEntries, RawValue.size, RawValue.sizeEntries]

/-- Node `path.parse(p).name`: the base name of the last path component with
its extension removed (a leading dot or a `..` component is no
extension). -/
def parsedPathName (p : String) : String :=
  let base := (p.splitOn "/").getLastD ""
  if base = ".." then base
  else
    let cs := base.toList
    match (cs.enum.filterMap (fun e => if e.2 = '.' then some e.1 else none)).getLast? with
    | none => base
    | some 0 => base
    | some i => String.mk (cs.take i)

/-- Fallback `modelField.models?.[0]` used as a property key: the key is
`"undefined"` when the allowed-model list is empty. -/
def fallbackModelKey (models : List String) : String :=
  match models.head? with
  | some m => m
  | none => "undefined"

/-- Resolution `const modelType = type ?? modelField.models?.[0]`, coerced to the
property key of the registry lookup `modelMap[modelType]`. -/
def resolvedModelKey (typeVal : Option RawValue) (models : List String) : String :=
  match typeVal with
  | none => fallbackModelKey models
  | some .null => fallbackModelKey models
  | some .undefined => fallbackModelKey models
  | some v => toPropKey v

/-- A typed document field (`DocumentField`), tagged like the field
spec that produced it. -/
inductive DocumentField where
  | scalar (type : String) (value : RawValue)
  | list (items : List DocumentField)
  | object (fields : List (String × DocumentField))
  | model (modelName : String) (fields : List (String × DocumentField))
  | reference (refType : String) (refId : RawValue)
  | image (fields : List (String × DocumentField))

/-- The `image` case of `convertFieldType`: the raw value is a path
string (`path.parse` throws on anything else); emit an object-shaped
field with synthesized `title` (basename without extension) and `url`
(the raw value verbatim) sub-fields. -/
def convertImageField (fieldValue : RawValue) : Except JsErr (Option DocumentField) :=
  match fieldValue with
  | .str s =>
    .ok (some (.image [("title", .scalar "string" (.str (parsedPathName s))),
                       ("url", .scalar "string" (.str s))]))
  | _ => .error .typeError

mutual

/-- Dispatch of `convertFieldType(fieldValue, modelField, modelMap)`: dispatch on the
field spec's type tag (each non-scalar case body is its own definition
below).  `.ok none` is the source's `null` return; thrown errors are the
`.error` branch. -/
def convertFieldType (fieldValue : RawValue) (modelField : FieldSpec)
    (modelMap : ModelMap) : Except JsErr (Option DocumentField) :=
  if scalarTypeTags.contains modelField.type then
    .ok (some (.scalar modelField.type fieldValue))
  else if modelField.type = "list" then
    convertListField fieldValue (modelField.items.getD (.one stringSpec)) modelMap
  else if modelField.type = "object" then
    convertObjectField fieldValue modelField.fields modelMap
  else if modelField.type = "model" then
    convertModelField fieldValue modelField.models modelMap
  else if modelField.type = "reference" then
    .ok (some (.reference "document" fieldValue))
  else if modelField.type = "image" then
    convertImageField fieldValue
  else
    .error (.unsupported modelField.type)
termination_by 10 * fieldValue.size + 5
decreasing_by
  · omega
  · omega
  · omega

/-- The `list` case of `convertFieldType`: `for..of` over the raw array
(a `TypeError` on a non-array; see `RawValue` for strings). -/
def convertListField (fieldValue : RawValue) (itemsModel : FieldItems)
    (modelMap : ModelMap) : Except JsErr (Option DocumentField) :=
  match fieldValue with
  | .arr xs =>
    match convertListItems xs itemsModel modelMap with
    | .error e => .error e
    | .ok items => .ok (some (.list items))
  | _ => .error .typeError
termination_by 10 * fieldValue.size + 4
decreasing_by
  · simp only [RawValue.size]; omega

/-- The `object` case of `convertFieldType`: recurse into the value's
entries with the spec's nested field list. -/
def convertObjectField (fieldValue : RawValue) (specFields : List NamedField)
    (modelMap : ModelMap) : Except JsErr (Option DocumentField) :=
  match h : jsEntries fieldValue with
  | .error e => .error e
  | .ok entries =>
    match convertFields entries specFields modelMap with
    | .error e => .error e
    | .ok fs => .ok (some (.object fs))
termination_by 10 * fieldValue.size + 4
decreasing_by
  · have h1 := jsEntries_size h; omega

/-- The `model` case of `convertFieldType`: strip `id`/`type`, resolve
the model by the value's `type` key or the spec's first allowed model
name, drop the field (`.ok none`, logged) when unresolved, otherwise
convert the remaining entries against the resolved model's fields. -/
def convertModelField (fieldValue : RawValue) (specModels : List String)
    (modelMap : ModelMap) : Except JsErr (Option DocumentField) :=
  match h : jsEntries fieldValue with
  | .error e => .error e
  | .ok entries =>
    match lookupModel modelMap
        (resolvedModelKey (findAssoc entries "type") specModels) with
    | none => .ok none
    | some model =>
      match convertFields (entries.filter (fun e => !(e.1 == "id") && !(e.1 == "type")))
          model.fields modelMap with
      | .error e => .error e
      | .ok fs => .ok (some (.model model.name fs))
termination_by 10 * fieldValue.size + 4
decreasing_by
  · have h1 := jsEntries_size h
    have h2 := RawValue.sizeEntries_filter_le
      (fun e => !(e.1 == "id") && !(e.1 == "type")) entries
    omega

/-- The per-element loop of the `list` case: convert each element with
the resolved item spec, keep the truthy (non-null) results in order.
When `items` is an array of specs its `.type` is `undefined`, so the
per-item dispatch falls to the default branch and throws. -/
def convertListItems (items : List RawValue) (itemsModel : FieldItems)
    (modelMap : ModelMap) : Except JsErr (List DocumentField) :=
  match items with
  | [] => .ok []
  | x :: xs =>
    match itemsModel with
    | .many _ => .error (.unsupported "undefined")
    | .one spec =>
      match convertFieldType x spec modelMap with
      | .error e => .error e
      | .ok df =>
        match convertListItems xs (.one spec) modelMap with
        | .error e => .error e
        | .ok rest => .ok (match df with | some d => d :: rest | none => rest)
termination_by 10 * RawValue.sizeArr items + 1
decreasing_by
  all_goals simp only [RawValue.sizeArr_cons]; omega

/-- Conversion `convertFields(dataFields, modelFields, modelMap)`: iterate the raw
record's entries, building the result object in insertion order.
(`Object.entries` and rest destructuring agree on the entry list, so the
record is passed as its entry list.) -/
def convertFields (dataFields : List (String × RawValue))
    (modelFields : List NamedField) (modelMap : ModelMap) :
    Except JsErr (List (String × DocumentField)) :=
  convertFieldsAux [] dataFields modelFields modelMap
termination_by 10 * RawValue.sizeEntries dataFields + 2
decreasing_by
  · omega

/-- The loop body of `convertFields` with the accumulated `result`
object: skip entries with no matching spec or a falsy value, otherwise
convert and store non-null results. -/
def convertFieldsAux (result : List (String × DocumentField))
    (dataFields : List (String × RawValue)) (modelFields : List NamedField)
    (modelMap : ModelMap) : Except JsErr (List (String × DocumentField)) :=
  match dataFields with
  | [] => .ok result
  | (fieldName, fieldValue) :: rest =>
    match findNamed modelFields fieldName with
    | none => convertFieldsAux result rest modelFields modelMap
    | some modelField =>
      if fieldValue.isFalsy then convertFieldsAux result rest modelFields modelMap
      else
        match convertFieldType fieldValue modelField.spec modelMap with
        | .error e => .error e
        | .ok (some df) =>
          convertFieldsAux (setAssoc result fieldName df) rest modelFields modelMap
        | .ok none => convertFieldsAux result rest modelFields modelMap
termination_by 10 * RawValue.sizeEntries dataFields + 1
decreasing_by
  all_goals simp only [RawValue.sizeEntries_cons]; omega

end

/-- A typed update-operation value (`UpdateOperationField`): the payload
of a `set`/`insert` operation.  `scalar` covers every non-structural
type tag, whose payload is a bare `value` (the reverse mapper's
`default` branch reads only `.value`). -/
inductive UpdateOperationField where
  | object (fields : List (String × UpdateOperationField))
  | model (modelName : String) (fields : List (String × UpdateOperationField))
  | list (items : List UpdateOperationField)
  | reference (refId : RawValue)
  | scalar (type : String) (value : RawValue)

/-- The `type` tag of an update-operation field, as read by the
polymorphic-list item resolution (`item.type`). -/
def UpdateOperationField.typeTag : UpdateOperationField → String
  | .object _ => "object"
  | .model _ _ => "model"
  | .list _ => "list"
  | .reference _ => "reference"
  | .scalar t _ => t

mutual

/-- Structural size of an update-operation field, the termination
measure of the reverse mapper. -/
def UpdateOperationField.size : UpdateOperationField → Nat
  | .object fs => 1 + UpdateOperationField.sizeFields fs
  | .model _ fs => 1 + UpdateOperationField.sizeFields fs
  | .list items => 1 + UpdateOperationField.sizeItems items
  | _ => 1

def UpdateOperationField.sizeFields : List (String × UpdateOperationField) → Nat
  | [] => 0
  | (_, f) :: fs => 1 + UpdateOperationField.size f + UpdateOperationField.sizeFields fs

def UpdateOperationField.sizeItems : List UpdateOperationField → Nat
  | [] => 0
  | f :: fs => 1 + UpdateOperationField.size f + UpdateOperationField.sizeItems fs

end

theorem UpdateOperationField.sizeFields_cons (e : String × UpdateOperationField)
    (fs : List (String × UpdateOperationField)) :
    UpdateOperationField.sizeFields (e :: fs) =
      1 + e.2.size + UpdateOperationField.sizeFields fs := by
  obtain ⟨k, f⟩ := e; rfl

theorem UpdateOperationField.sizeItems_cons (f : UpdateOperationField)
    (fs : List UpdateOperationField) :
    UpdateOperationField.sizeItems (f :: fs) =
      1 + f.size + UpdateOperationField.sizeItems fs := rfl

/-- Lookup `childModel?.fields` of the `'model'` case: the empty list when the
update value's model name is not in the registry (`_.find` over
`undefined` finds nothing). -/
def modelChildFields (modelMap : ModelMap) (modelName : String) : List NamedField :=
  match lookupModel modelMap modelName with
  | some childModel => childModel.fields
  | none => []

/-- Resolution `const listItemsModel = modelField?.type === 'list' && modelField.items`:
the field spec's `items` when the spec is list-typed, nothing otherwise. -/
def listItemsOf (modelField : Option FieldSpec) : Option FieldItems :=
  match modelField with
  | some mf => if mf.type = "list" then mf.items else none
  | none => none

/-- Per-item spec resolution of the `'list'` case: matched by type tag
when `items` is an array of specs, used directly when singular,
`undefined` otherwise. -/
def resolveListItemSpec (listItemsModel : Option FieldItems)
    (item : UpdateOperationField) : Option FieldSpec :=
  match listItemsModel with
  | some (.many specs) => specs.find? (fun s => s.type == item.typeTag)
  | some (.one spec) => some spec
  | none => none

mutual

/-- Reverse mapper `mapUpdateOperationToValue(updateOperationField, modelMap, modelField)`.
The `'object'` case follows the source faithfully: it allocates
`const object = {}` but stores every child with `_.set(result, ...)`,
where `result` is the `const` declared only in the later `'model'` case
of the same switch block.  With a non-empty `fields` the first stored
child therefore hits the temporal dead zone of `result`
(`.error .referenceError`); before that, the child-spec lookup reads
`(modelField as FieldObjectProps).fields`, which is a `TypeError` when
`modelField` is `undefined`, and the recursive call on the first child
runs (its error, if any, wins). -/
def mapUpdateOperationToValue (updateOperationField : UpdateOperationField)
    (modelMap : ModelMap) (modelField : Option FieldSpec) : Except JsErr RawValue :=
  match updateOperationField with
  | .object fields =>
    match fields with
    | [] => .ok (.obj [])
    | (fieldName, child) :: _ =>
      match modelField with
      | none => .error .typeError
      | some mf =>
        match mapUpdateOperationToValue child modelMap
            ((findNamed mf.fields fieldName).map (·.spec)) with
        | .error e => .error e
        | .ok _ => .error .referenceError
  | .model modelName fields =>
    match mapUOFields fields (modelChildFields modelMap modelName) modelMap with
    | .error e => .error e
    | .ok entries => .ok (.obj entries)
  | .list items =>
    match mapUOItems items (listItemsOf modelField) modelMap with
    | .error e => .error e
    | .ok vs => .ok (.arr vs)
  | .reference refId => .ok refId
  | .scalar _ value => .ok value
termination_by 3 * updateOperationField.size
decreasing_by
  · simp only [UpdateOperationField.size, UpdateOperationField.sizeFields_cons]; omega
  · simp only [UpdateOperationField.size]; omega
  · simp only [UpdateOperationField.size]; omega

/-- The `'model'` case loop: `result` starts as the fresh `{}` of that
case and each child is stored with `_.set(result, fieldName, value)`
(insertion order; a repeated name overwrites in place). -/
def mapUOFields (fields : List (String × UpdateOperationField))
    (childFields : List NamedField) (modelMap : ModelMap) :
    Except JsErr (List (String × RawValue)) :=
  mapUOFieldsAux [] fields childFields modelMap
termination_by 3 * UpdateOperationField.sizeFields fields + 2
decreasing_by
  · omega

def mapUOFieldsAux (result : List (String × RawValue))
    (fields : List (String × UpdateOperationField)) (childFields : List NamedField)
    (modelMap : ModelMap) : Except JsErr (List (String × RawValue)) :=
  match fields with
  | [] => .ok result
  | (fieldName, child) :: rest =>
    match mapUpdateOperationToValue child modelMap
        ((findNamed childFields fieldName).map (·.spec)) with
    | .error e => .error e
    | .ok v => mapUOFieldsAux (setAssoc result fieldName v) rest childFields modelMap
termination_by 3 * UpdateOperationField.sizeFields fields + 1
decreasing_by
  all_goals simp only [UpdateOperationField.sizeFields_cons]; omega

/-- The `'list'` case: map each item, resolving the item spec from the
field spec's `items` — matched by type tag when `items` is an array of
specs, used directly when singular, `undefined` otherwise. -/
def mapUOItems (items : List UpdateOperationField) (listItemsModel : Option FieldItems)
    (modelMap : ModelMap) : Except JsErr (List RawValue) :=
  match items with
  | [] => .ok []
  | item :: rest =>
    match mapUpdateOperationToValue item modelMap
        (resolveListItemSpec listItemsModel item) with
    | .error e => .error e
    | .ok v =>
      match mapUOItems rest listItemsModel modelMap with
      | .error e => .error e
      | .ok vs => .ok (v :: vs)
termination_by 3 * UpdateOperationField.sizeItems items + 1
decreasing_by
  all_goals simp only [UpdateOperationField.sizeItems_cons]; omega

end

/-- Property read of one path step (`object[toKey(key)]`): object keys,
canonical array indices; anything else (including any property of a
scalar, `null` or `undefined`) reads as `undefined`. -/
def getProp (v : RawValue) (k : PKey) : RawValue :=
  match v with
  | .obj kvs => (findAssoc kvs k.propKey).getD .undefined
  | .arr xs =>
    match parseIndex? k.propKey with
    | some n => xs.getD n .undefined
    | none => .undefined
  | _ => .undefined

/-- Read `lodash _.get(data, path)`: walk the path; an empty path or a broken
step yields `undefined`. -/
def lgetGo (v : RawValue) : List PKey → RawValue
  | [] => v
  | k :: ks => lgetGo (getProp v k) ks

def lget (v : RawValue) (path : List PKey) : RawValue :=
  match path with
  | [] => .undefined
  | _ => lgetGo v path

/-- Write an array slot at a possibly out-of-range index: JavaScript
extends the array, filling the gap with holes (`undefined`). -/
def setNth (xs : List RawValue) (n : Nat) (x : RawValue) : List RawValue :=
  match xs, n with
  | _ :: rest, 0 => x :: rest
  | y :: rest, Nat.succ m => y :: setNth rest m x
  | [], 0 => [x]
  | [], Nat.succ m => .undefined :: setNth [] m x

/-- Property assignment of one path step (lodash `assignValue`): on an
object, set the key; on an array, set a canonical index.  A non-index
string property of an array is invisible to this data model and
assigning one leaves the value unchanged; assignment on a non-container
is ignored. -/
def setProp (v : RawValue) (k : PKey) (x : RawValue) : RawValue :=
  match v with
  | .obj kvs => .obj (setAssoc kvs k.propKey x)
  | .arr xs =>
    match parseIndex? k.propKey with
    | some n => .arr (setNth xs n x)
    | none => v
  | _ => v

def RawValue.isContainer : RawValue → Bool
  | .obj _ => true
  | .arr _ => true
  | _ => false

/-- The intermediate container of one `lodash _.set` walk step: keep an
existing object/array child, otherwise create a fresh `[]` or `{}`
depending on whether the next step is an index (`isIndex`). -/
def childBase (v : RawValue) (k k2 : PKey) : RawValue :=
  if (getProp v k).isContainer then getProp v k
  else if (parseIndex? k2.propKey).isSome then .arr [] else .obj []

/-- The path walk of `lodash _.set` (`baseSet`). -/
def lsetGo (v : RawValue) : List PKey → RawValue → RawValue
  | [], _ => v
  | [k], x => setProp v k x
  | k :: k2 :: rest, x =>
    setProp v k (lsetGo (childBase v k k2) (k2 :: rest) x)

/-- Write `lodash _.set(data, path, value)`: a non-object root is returned
unchanged. -/
def lset (v : RawValue) (path : List PKey) (x : RawValue) : RawValue :=
  if v.isContainer then lsetGo v path x else v

/-- Deletion `delete parent[toKey(last(path))]`: remove an object key; deleting
an array slot leaves a hole (`undefined`), the length is unchanged. -/
def deleteProp (v : RawValue) (k : PKey) : RawValue :=
  match v with
  | .obj kvs => .obj (kvs.filter (fun e => !(e.1 == k.propKey)))
  | .arr xs =>
    match parseIndex? k.propKey with
    | some n => if n < xs.length then .arr (xs.set n .undefined) else v
    | none => v
  | _ => v

/-- Removal `lodash _.unset(data, path)`: delete at the parent reached by the
path without creating anything along the way. -/
def lunset (data : RawValue) : List PKey → RawValue
  | [] => data
  | [k] => deleteProp data k
  | k :: k2 :: rest =>
    match data with
    | .obj kvs =>
      .obj (kvs.map (fun e =>
        if e.1 = k.propKey then (e.1, lunset e.2 (k2 :: rest)) else e))
    | .arr xs =>
      match parseIndex? k.propKey with
      | some n =>
        if h : n < xs.length then
          .arr (xs.set n (lunset (xs.get ⟨n, h⟩) (k2 :: rest)))
        else data
      | none => data
    | _ => data

/-- The array spread `[..._.get(data, fieldPath)]` of the `insert`,
`remove` and `reorder` operations: a `TypeError` on anything that is
not an array (iterable strings are outside the model; see `RawValue`). -/
def spreadArr : RawValue → Except JsErr (List RawValue)
  | .arr xs => .ok xs
  | _ => .error .typeError

/-- An update operation (`UpdateOperation`): `set`, `unset`, `insert`,
`remove` or `reorder` at a field path. -/
inductive UpdateOperation where
  | set (fieldPath : List PKey) (field : UpdateOperationField)
        (modelField : Option FieldSpec)
  | unset (fieldPath : List PKey)
  | insert (fieldPath : List PKey) (item : UpdateOperationField)
           (modelField : Option FieldSpec) (index : Option Nat)
  | remove (fieldPath : List PKey) (index : Nat)
  | reorder (fieldPath : List PKey) (order : List Nat)

/-- One arm of `updateDocument`'s switch over `updateOperation.opType`,
acting on the raw record `data`. -/
def applyOperation (data : RawValue) (operation : UpdateOperation)
    (modelMap : ModelMap) : Except JsErr RawValue :=
  match operation with
  | .set fieldPath field modelField =>
    match mapUpdateOperationToValue field modelMap modelField with
    | .error e => .error e
    | .ok value => .ok (lset data fieldPath value)
  | .unset fieldPath => .ok (lunset data fieldPath)
  | .insert fieldPath item modelField index =>
    match mapUpdateOperationToValue item modelMap modelField with
    | .error e => .error e
    | .ok value =>
      match spreadArr (lget data fieldPath) with
      | .error e => .error e
      | .ok arr =>
        let i := min (index.getD 0) arr.length
        .ok (lset data fieldPath (.arr (arr.take i ++ value :: arr.drop i)))
  | .remove fieldPath index =>
    match spreadArr (lget data fieldPath) with
    | .error e => .error e
    | .ok arr => .ok (lset data fieldPath (.arr (arr.take index ++ arr.drop (index + 1))))
  | .reorder fieldPath order =>
    match spreadArr (lget data fieldPath) with
    | .error e => .error e
    | .ok arr => .ok (lset data fieldPath (.arr (order.map (fun newIndex => arr.getD newIndex .undefined))))

/-- The operation loop of `updateDocument`, mutating `data` in order. -/
def applyOperations (data : RawValue) (operations : List UpdateOperation)
    (modelMap : ModelMap) : Except JsErr RawValue :=
  match operations with
  | [] => .ok data
  | op :: rest =>
    match applyOperation data op modelMap with
    | .error e => .error e
    | .ok data2 => applyOperations data2 rest modelMap

/-- A typed document: the envelope `convertDocument` assembles around
the converted fields.  The file-metadata timestamps and the empty
`context` are external I/O and carry no information; they are omitted. -/
structure Document where
  id : String
  modelName : String
  manageUrl : String
  status : String
  fields : List (String × DocumentField)

/-- The registry key of `modelMap[type]` in `convertDocument`: the raw
record's destructured `type` (property key `"undefined"` when absent,
no fallback to allowed model names here). -/
def docTypeKey (entries : List (String × RawValue)) : String :=
  match findAssoc entries "type" with
  | none => "undefined"
  | some v => toPropKey v

/-- Assembly `convertDocument(filePath, fullFilePath, data, modelMap)`: strip
`id`/`type`, resolve the model by the raw `type` key (no fallback here),
return `null` for an unknown model, otherwise assemble the document. -/
def convertDocument (filePath : String) (data : RawValue) (modelMap : ModelMap) :
    Except JsErr (Option Document) :=
  match jsEntries data with
  | .error e => .error e
  | .ok entries =>
    match lookupModel modelMap (docTypeKey entries) with
    | none => .ok none
    | some model =>
      match convertFields (entries.filter (fun e => !(e.1 == "id") && !(e.1 == "type")))
          model.fields modelMap with
      | .error e => .error e
      | .ok fs =>
        .ok (some { id := filePath, modelName := model.name, manageUrl := "",
                    status := "published", fields := fs })

/-- Update `updateDocument(options)`: apply the operations to the raw record
read from the document's file, persist it (external I/O), then
re-convert; `convertDocument(...) || document` falls back to the input
document when re-conversion resolves no model. -/
def updateDocument (document : Document) (data : RawValue)
    (operations : List UpdateOperation) (modelMap : ModelMap) :
    Except JsErr Document :=
  match applyOperations data operations modelMap with
  | .error e => .error e
  | .ok data2 =>
    match convertDocument document.id data2 modelMap with
    | .error e => .error e
    | .ok (some doc2) => .ok doc2
    | .ok none => .ok document

mutual

/-- The update-operation value of a `set` operation that carries the
same field values as a converted document field (the round-trip
coupling of the spec's "mapping a `set` update with the identical field
values back").  An `image` field has no bare update-value counterpart,
so it is out of the round trip (`none`). -/
def toUpdateField : DocumentField → Option UpdateOperationField
  | .scalar t v => some (.scalar t v)
  | .reference _ refId => some (.reference refId)
  | .list items =>
    match toUpdateFieldItems items with
    | some ufs => some (.list ufs)
    | none => none
  | .object fs =>
    match toUpdateFieldEntries fs with
    | some ufs => some (.object ufs)
    | none => none
  | .model modelName fs =>
    match toUpdateFieldEntries fs with
    | some ufs => some (.model modelName ufs)
    | none => none
  | .image _ => none

def toUpdateFieldItems : List DocumentField → Option (List UpdateOperationField)
  | [] => some []
  | f :: fs =>
    match toUpdateField f, toUpdateFieldItems fs with
    | some uf, some ufs => some (uf :: ufs)
    | _, _ => none

def toUpdateFieldEntries : List (String × DocumentField) →
    Option (List (String × UpdateOperationField))
  | [] => some []
  | (k, f) :: fs =>
    match toUpdateField f, toUpdateFieldEntries fs with
    | some uf, some ufs => some ((k, uf) :: ufs)
    | _, _ => none

end

/-- Two field paths address independent locations when they disagree on
a property key before either ends: neither is a prefix of the other. -/
def pathsDiverge : List PKey → List PKey → Bool
  | a :: as, b :: bs =>
    if a.propKey = b.propKey then pathsDiverge as bs else true
  | _, _ => false

theorem findAssoc_setAssoc_eq (l : List (String × α)) (key : String) (x : α) :
    findAssoc (setAssoc l key x) key = some x := by
  have hkey : (key == key) = true := beq_self_eq_true key
  induction l with
  | nil => simp [setAssoc, findAssoc, List.find?, hkey]
  | cons e rest ih =>
    by_cases he : e.1 = key
    · simp [setAssoc, he, findAssoc, List.find?, hkey]
    · have hb : (e.1 == key) = false := beq_eq_false_iff_ne.mpr he
      simpa [setAssoc, he, findAssoc, List.find?, hb] using ih

theorem findAssoc_setAssoc_ne (l : List (String × α)) (key k : String) (x : α)
    (h : k ≠ key) : findAssoc (setAssoc l key x) k = findAssoc l k := by
  have hb0 : (key == k) = false := beq_eq_false_iff_ne.mpr (Ne.symm h)
  induction l with
  | nil => simp [setAssoc, findAssoc, List.find?, hb0]
  | cons e rest ih =>
    by_cases he : e.1 = key
    · subst he
      have hb1 : (e.1 == k) = false := beq_eq_false_iff_ne.mpr (Ne.symm h)
      simp [setAssoc, findAssoc, List.find?, hb0, hb1]
    · by_cases hk : e.1 = k
      · have hb1 : (e.1 == k) = true := by simpa using hk
        simp [setAssoc, he, findAssoc, List.find?, hb1]
      · have hb1 : (e.1 == k) = false := beq_eq_false_iff_ne.mpr hk
        simpa [setAssoc, he, findAssoc, List.find?, hb1] using ih

/-- C2: `mapUpdateOperationToValue` on an object-typed update field: the
claimed per-child raw mapping is never built — with one child the call
fails with a `ReferenceError` (the children are stored into `result`, a
`const` declared only in the later `'model'` case of the same switch,
dead at this point; the `object` that is returned is never populated),
so only the empty-fields case returns the (empty) mapping. -/
theorem claim_C2_code_bug :
    mapUpdateOperationToValue (.object [("a", .scalar "string" (.str "x"))]) []
      (some (.mk "object" none [.mk "a" stringSpec] [])) = .error .referenceError ∧
    mapUpdateOperationToValue (.object []) [] (some (.mk "object" none [] []))
      = .ok (.obj []) := by
  constructor <;>
    simp [mapUpdateOperationToValue, findNamed, NamedField.name, NamedField.spec,
          FieldSpec.fields, stringSpec]

/-- C3 (counterexample): the converter supports nineteen type tags, not
sixteen as the claim counts them. -/
theorem claim_C3_counterexample :
    supportedTypeTags.length = 19 ∧ ¬ supportedTypeTags.length = 16 := by
  decide

/-- C3 (amended): for every field spec whose type tag is not one of the
nineteen supported tags, `convertFieldType` fails with the
UnsupportedFieldType error for that tag, on every value and registry;
and the error propagates out of `convertFields`, aborting the enclosing
record conversion (unlike the soft skip failures). -/
theorem claim_C3_amended (modelField : FieldSpec)
    (h : supportedTypeTags.contains modelField.type = false) :
    (∀ (v : RawValue) (modelMap : ModelMap),
        convertFieldType v modelField modelMap = .error (.unsupported modelField.type)) ∧
    (∀ (name : String) (v : RawValue) (rest : List (String × RawValue))
        (modelFields : List NamedField) (modelMap : ModelMap) (nf : NamedField),
        findNamed modelFields name = some nf → nf.spec = modelField →
        v.isFalsy = false →
        convertFields ((name, v) :: rest) modelFields modelMap =
          .error (.unsupported modelField.type)) := by
  have hmem : modelField.type ∉ supportedTypeTags := by
    intro hm
    have hc : supportedTypeTags.contains modelField.type = true := by simpa using hm
    rw [h] at hc
    cases hc
  have hscalar : scalarTypeTags.contains modelField.type = false := by
    by_contra hc
    rw [Bool.not_eq_false] at hc
    have hm : modelField.type ∈ scalarTypeTags := by simpa using hc
    exact hmem (by simp only [supportedTypeTags, List.mem_append]; exact Or.inl hm)
  have hlist : modelField.type ≠ "list" := fun he =>
    hmem (by simp [supportedTypeTags, he])
  have hobject : modelField.type ≠ "object" := fun he =>
    hmem (by simp [supportedTypeTags, he])
  have hmodel : modelField.type ≠ "model" := fun he =>
    hmem (by simp [supportedTypeTags, he])
  have href : modelField.type ≠ "reference" := fun he =>
    hmem (by simp [supportedTypeTags, he])
  have himage : modelField.type ≠ "image" := fun he =>
    hmem (by simp [supportedTypeTags, he])
  have hsm : modelField.type ∉ scalarTypeTags := by
    intro hm
    have hc : scalarTypeTags.contains modelField.type = true := by simpa using hm
    rw [hscalar] at hc
    cases hc
  have hthrow : ∀ (v : RawValue) (modelMap : ModelMap),
      convertFieldType v modelField modelMap = .error (.unsupported modelField.type) := by
    intro v mm
    simp [convertFieldType, hscalar, hsm, hlist, hobject, hmodel, href, himage]
  refine ⟨hthrow, ?_⟩
  intro name v rest modelFields mm nf hfind hspec hfalsy
  have hconv : convertFieldType v nf.spec mm = .error (.unsupported modelField.type) := by
    rw [hspec]; exact hthrow v mm
  simp [convertFields, convertFieldsAux, hfind, hfalsy, hconv]

/-- C3 witness: the tag `richText` (a TODO in the source) is
unsupported; the conversion of a record containing it aborts. -/
theorem claim_C3_witness :
    supportedTypeTags.contains (FieldSpec.mk "richText" none [] []).type = false ∧
    convertFieldType (.str "x") (.mk "richText" none [] []) []
      = .error (.unsupported "richText") ∧
    convertFields [("a", .str "x")] [.mk "a" (.mk "richText" none [] [])] []
      = .error (.unsupported "richText") :=
  ⟨by decide,
   (claim_C3_amended _ (by decide)).1 (.str "x") [],
   (claim_C3_amended (.mk "richText" none [] []) (by decide)).2 "a" (.str "x") []
     [.mk "a" (.mk "richText" none [] [])] []
     (.mk "a" (.mk "richText" none [] [])) rfl rfl rfl⟩

/-- C7: a `reorder` operation replaces the array at the field path
outright with the array built from the permutation (`newArr[k]` is
`arr[order[k]]`); in particular `[A,B,C]` with order `[2,0,1]` becomes
`[C,A,B]`. -/
theorem claim_C7 :
    (∀ (data : RawValue) (fieldPath : List PKey) (order : List Nat)
        (xs : List RawValue) (modelMap : ModelMap),
        lget data fieldPath = .arr xs →
        applyOperation data (.reorder fieldPath order) modelMap =
          .ok (lset data fieldPath
            (.arr (order.map (fun newIndex => xs.getD newIndex .undefined))))) ∧
    (∀ (A B C : RawValue) (modelMap : ModelMap),
        applyOperation (.obj [("t", .arr [A, B, C])]) (.reorder [.str "t"] [2, 0, 1])
          modelMap = .ok (.obj [("t", .arr [C, A, B])])) := by
  constructor
  · intro data fieldPath order xs mm h
    simp [applyOperation, h, spreadArr]
  · intro A B C mm
    simp [applyOperation, lget, lgetGo, getProp, findAssoc, PKey.propKey, spreadArr,
          lset, lsetGo, setProp, RawValue.isContainer, setAssoc, parseIndex?,
          List.find?]

theorem claim_C7_witness :
    lget (.obj [("t", .arr [.num 1, .num 2])]) [.str "t"] = .arr [.num 1, .num 2] ∧
    applyOperation (.obj [("t", .arr [.num 1, .num 2])]) (.reorder [.str "t"] [1, 0]) [] =
      .ok (lset (.obj [("t", .arr [.num 1, .num 2])]) [.str "t"]
        (.arr ([1, 0].map (fun newIndex =>
          List.getD [RawValue.num 1, RawValue.num 2] newIndex .undefined)))) :=
  ⟨rfl, claim_C7.1 _ _ _ _ _ rfl⟩

theorem convertDocument_id (filePath : String) (data : RawValue) (modelMap : ModelMap)
    (doc : Document) (h : convertDocument filePath data modelMap = .ok (some doc)) :
    doc.id = filePath := by
  unfold convertDocument at h
  split at h
  · cases h
  · split at h
    · cases h
    · split at h
      · cases h
      · simp only [Except.ok.injEq, Option.some.injEq] at h
        rw [← h]

/-- C8: whenever `updateDocument` returns a document, its `id` equals
the input document's `id` — both when the written record re-converts
(the fresh document is assembled with `document.id` as its path) and
when re-conversion resolves no model and the original document is
returned. -/
theorem claim_C8 (document : Document) (data : RawValue)
    (operations : List UpdateOperation) (modelMap : ModelMap) (result : Document)
    (h : updateDocument document data operations modelMap = .ok result) :
    result.id = document.id := by
  unfold updateDocument at h
  split at h
  · cases h
  · split at h
    · cases h
    · rename_i data2 happ doc2 hconv
      simp only [Except.ok.injEq] at h
      rw [← h]
      exact convertDocument_id _ _ _ _ hconv
    · simp only [Except.ok.injEq] at h
      rw [← h]

theorem claim_C8_witness :
    updateDocument ⟨"content/a.md", "post", "", "published", []⟩
      (.obj [("type", .str "post")]) [] [("post", ⟨"post", []⟩)] =
      .ok ⟨"content/a.md", "post", "", "published", []⟩ ∧
    ("content/a.md" : String) = "content/a.md" :=
  have hud : updateDocument ⟨"content/a.md", "post", "", "published", []⟩
      (.obj [("type", .str "post")]) [] [("post", ⟨"post", []⟩)] =
      .ok ⟨"content/a.md", "post", "", "published", []⟩ := by
    simp [updateDocument, applyOperations, convertDocument, jsEntries, findAssoc,
          toPropKey, lookupModel, convertFields, convertFieldsAux, List.find?,
          docTypeKey]
  ⟨hud, claim_C8 _ _ _ _ _ hud⟩

/-- C6: the `model` case — resolution by the record's own `type` key,
fallback to the spec's first allowed model name when the key is absent,
a soft `null` (field dropped) when the resolved name is not in the
registry, and otherwise `{ type:'model', modelName, fields }` with
`id`/`type` stripped and the rest converted against the resolved
model's field list. -/
theorem claim_C6 :
    (∀ (s : String) (models : List String),
        resolvedModelKey (some (.str s)) models = s) ∧
    (∀ (m : String) (ms : List String),
        resolvedModelKey none (m :: ms) = m) ∧
    (∀ (spec : FieldSpec) (kvs : List (String × RawValue)) (modelMap : ModelMap),
        spec.type = "model" →
        lookupModel modelMap (resolvedModelKey (findAssoc kvs "type") spec.models)
          = none →
        convertFieldType (.obj kvs) spec modelMap = .ok none) ∧
    (∀ (spec : FieldSpec) (kvs : List (String × RawValue)) (modelMap : ModelMap)
        (model : ModelDef) (fs : List (String × DocumentField)),
        spec.type = "model" →
        lookupModel modelMap (resolvedModelKey (findAssoc kvs "type") spec.models)
          = some model →
        convertFields (kvs.filter (fun e => !(e.1 == "id") && !(e.1 == "type")))
          model.fields modelMap = .ok fs →
        convertFieldType (.obj kvs) spec modelMap = .ok (some (.model model.name fs))) := by
  refine ⟨?_, ?_, ?_, ?_⟩
  · intro s models; simp [resolvedModelKey, toPropKey]
  · intro m ms; rfl
  · intro spec kvs mm htype hlookup
    simp [convertFieldType, htype, convertModelField, jsEntries, hlookup, scalarTypeTags]
  · intro spec kvs mm model fs htype hlookup hfields
    simp [convertFieldType, htype, convertModelField, jsEntries, hlookup, hfields,
          scalarTypeTags]

theorem claim_C6_witness :
    resolvedModelKey none ["post"] = "post" ∧
    lookupModel [("post", ⟨"PostName", [.mk "a" stringSpec]⟩)]
      (resolvedModelKey (findAssoc [("a", RawValue.str "x")] "type")
        (FieldSpec.mk "model" none [] ["post"]).models)
      = some ⟨"PostName", [.mk "a" stringSpec]⟩ ∧
    convertFieldType (.obj [("a", .str "x")]) (.mk "model" none [] ["post"])
      [("post", ⟨"PostName", [.mk "a" stringSpec]⟩)]
      = .ok (some (.model "PostName" [("a", .scalar "string" (.str "x"))])) :=
  ⟨claim_C6.2.1 "post" [],
   rfl,
   claim_C6.2.2.2 (.mk "model" none [] ["post"]) [("a", .str "x")]
     [("post", ⟨"PostName", [.mk "a" stringSpec]⟩)] ⟨"PostName", [.mk "a" stringSpec]⟩
     [("a", .scalar "string" (.str "x"))] rfl rfl
     (by simp [convertFields, convertFieldsAux, findNamed, NamedField.name,
               NamedField.spec, RawValue.isFalsy, convertFieldType, scalarTypeTags,
               stringSpec, FieldSpec.type, setAssoc, List.find?])⟩

theorem convertListItems_one (s : FieldSpec) (modelMap : ModelMap) :
    ∀ (xs : List RawValue) (os : List (Option DocumentField)),
      xs.mapM (fun x => convertFieldType x s modelMap) = .ok os →
      convertListItems xs (.one s) modelMap = .ok os.reduceOption := by
  intro xs
  suffices hsuf : ∀ (os : List (Option DocumentField)),
      xs.mapM' (fun x => convertFieldType x s modelMap) = .ok os →
      convertListItems xs (.one s) modelMap = .ok os.reduceOption by
    intro os h
    exact hsuf os (by rw [List.mapM'_eq_mapM]; exact h)
  induction xs with
  | nil =>
    intro os h
    simp only [List.mapM', pure, Except.pure, Except.ok.injEq] at h
    subst h
    simp [convertListItems, List.reduceOption]
  | cons x xs ih =>
    intro os h
    simp only [List.mapM'] at h
    cases hx : convertFieldType x s modelMap with
    | error e => simp [hx, Except.bind, bind] at h
    | ok y =>
      cases hxs : xs.mapM' (fun x => convertFieldType x s modelMap) with
      | error e => simp [hx, hxs, Except.bind, bind, pure, Except.pure] at h
      | ok ys =>
        simp only [hx, hxs, Except.bind, bind, pure, Except.pure, Except.ok.injEq] at h
        subst h
        have hrest := ih ys hxs
        cases y with
        | some d =>
          simp [convertListItems, hx, hrest, List.reduceOption_cons_of_some]
        | none =>
          simp [convertListItems, hx, hrest, List.reduceOption_cons_of_none]

/-- C5: for a list-typed spec and a raw array, the item spec is the
explicit single `items` or the default `{type:'string'}`; each element
is converted independently, exactly the null conversions are dropped,
the order of the survivors is preserved, and the result is
`{ type:'list', items }`. -/
theorem claim_C5 (spec s : FieldSpec) (modelMap : ModelMap) (xs : List RawValue)
    (os : List (Option DocumentField))
    (htype : spec.type = "list")
    (hitems : (spec.items = none ∧ s = stringSpec) ∨ spec.items = some (.one s))
    (hconv : xs.mapM (fun x => convertFieldType x s modelMap) = .ok os) :
    convertFieldType (.arr xs) spec modelMap = .ok (some (.list os.reduceOption)) := by
  have hres : spec.items.getD (.one stringSpec) = .one s := by
    rcases hitems with ⟨h1, h2⟩ | h1
    · simp [h1, h2]
    · simp [h1]
  have hl := convertListItems_one s modelMap xs os hconv
  simp [convertFieldType, htype, convertListField, hres, hl, scalarTypeTags]

theorem claim_C5_witness :
    ([.str "a", .null] : List RawValue).mapM (fun x => convertFieldType x stringSpec [])
      = .ok [some (.scalar "string" (.str "a")), some (.scalar "string" .null)] ∧
    convertFieldType (.arr [.str "a", .null]) (.mk "list" none [] []) []
      = .ok (some (.list [.scalar "string" (.str "a"), .scalar "string" .null])) :=
  have hm : ([.str "a", .null] : List RawValue).mapM
      (fun x => convertFieldType x stringSpec [])
      = .ok [some (.scalar "string" (.str "a")), some (.scalar "string" .null)] := by
    rw [← List.mapM'_eq_mapM]
    simp [List.mapM', convertFieldType, stringSpec, FieldSpec.type,
          scalarTypeTags, Except.bind, bind, pure, Except.pure]
  ⟨hm, claim_C5 (.mk "list" none [] []) stringSpec [] [.str "a", .null]
     [some (.scalar "string" (.str "a")), some (.scalar "string" .null)]
     rfl (Or.inl ⟨rfl, rfl⟩) hm⟩

theorem convertListField_ne_ok_none (v : RawValue) (itemsModel : FieldItems)
    (modelMap : ModelMap) : convertListField v itemsModel modelMap ≠ .ok none := by
  intro h
  cases v <;> simp only [convertListField] at h <;> try cases h
  split at h <;> cases h

theorem convertObjectField_ne_ok_none (v : RawValue) (specFields : List NamedField)
    (modelMap : ModelMap) : convertObjectField v specFields modelMap ≠ .ok none := by
  intro h
  simp only [convertObjectField] at h
  split at h
  · cases h
  · split at h <;> cases h

theorem convertImageField_ne_ok_none (v : RawValue) :
    convertImageField v ≠ .ok none := by
  intro h
  cases v <;> simp [convertImageField] at h

theorem convertModelField_ok_none_iff (v : RawValue) (specModels : List String)
    (modelMap : ModelMap) :
    convertModelField v specModels modelMap = .ok none ↔
      ∃ entries, jsEntries v = .ok entries ∧
        lookupModel modelMap (resolvedModelKey (findAssoc entries "type") specModels)
          = none := by
  constructor
  · intro h
    simp only [convertModelField] at h
    split at h
    · cases h
    · rename_i entries hje
      split at h
      · exact ⟨entries, hje, by assumption⟩
      · split at h <;> cases h
  · rintro ⟨entries, hje, hlk⟩
    simp only [convertModelField]
    split
    · rename_i e heq; rw [hje] at heq; cases heq
    · rename_i entries2 heq
      rw [hje] at heq
      injection heq with heq2
      subst heq2
      rw [hlk]

/-- C9: `convertFieldType` returns `null` exactly when the spec is
`model`-typed and the resolved model name is not in the registry; an
`.ok` result of any other supported tag is never `null` — in particular
a list field is never dropped and an empty raw array yields
`{ type:'list', items: [] }`. -/
theorem claim_C9 :
    (∀ (v : RawValue) (spec : FieldSpec) (modelMap : ModelMap),
        convertFieldType v spec modelMap = .ok none →
        spec.type = "model" ∧ ∃ entries, jsEntries v = .ok entries ∧
          lookupModel modelMap
            (resolvedModelKey (findAssoc entries "type") spec.models) = none) ∧
    (∀ (v : RawValue) (spec : FieldSpec) (modelMap : ModelMap)
        (entries : List (String × RawValue)),
        spec.type = "model" → jsEntries v = .ok entries →
        lookupModel modelMap
          (resolvedModelKey (findAssoc entries "type") spec.models) = none →
        convertFieldType v spec modelMap = .ok none) ∧
    (∀ (spec : FieldSpec) (modelMap : ModelMap), spec.type = "list" →
        convertFieldType (.arr []) spec modelMap = .ok (some (.list []))) := by
  refine ⟨?_, ?_, ?_⟩
  · intro v spec mm h
    simp only [convertFieldType] at h
    split_ifs at h with h1 h2 h3 h4 h5 h6
    all_goals
      first
        | exact absurd h (convertListField_ne_ok_none _ _ _)
        | exact absurd h (convertObjectField_ne_ok_none _ _ _)
        | exact absurd h (convertImageField_ne_ok_none _)
        | exact ⟨h4, (convertModelField_ok_none_iff v spec.models mm).mp h⟩
        | simp at h
  · intro v spec mm entries htype hje hlk
    have hm := (convertModelField_ok_none_iff v spec.models mm).mpr ⟨entries, hje, hlk⟩
    simp [convertFieldType, htype, scalarTypeTags, hm]
  · intro spec mm htype
    simp [convertFieldType, htype, scalarTypeTags, convertListField, convertListItems]

theorem claim_C9_witness :
    convertFieldType (.obj []) (.mk "model" none [] []) [] = .ok none ∧
    convertFieldType (.arr []) (.mk "list" none [] []) [] = .ok (some (.list [])) :=
  ⟨claim_C9.2.1 (.obj []) (.mk "model" none [] []) [] [] rfl rfl rfl,
   claim_C9.2.2 (.mk "list" none [] []) [] rfl⟩

theorem convertFieldsAux_not_mem :
    ∀ (dataFields : List (String × RawValue)) (acc : List (String × DocumentField))
      (modelFields : List NamedField) (modelMap : ModelMap)
      (out : List (String × DocumentField)) (name : String),
      name ∉ dataFields.map Prod.fst →
      convertFieldsAux acc dataFields modelFields modelMap = .ok out →
      findAssoc out name = findAssoc acc name := by
  intro dataFields
  induction dataFields with
  | nil =>
    intro acc mf mm out name hn h
    simp only [convertFieldsAux, Except.ok.injEq] at h
    subst h
    rfl
  | cons e rest ih =>
    obtain ⟨k, v⟩ := e
    intro acc mf mm out name hn h
    simp only [List.map_cons, List.mem_cons, not_or] at hn
    obtain ⟨hkn, hrest⟩ := hn
    simp only [convertFieldsAux] at h
    split at h
    · exact ih acc mf mm out name hrest h
    · split at h
      · exact ih acc mf mm out name hrest h
      · split at h
        · cases h
        · rename_i df hcft
          rw [ih _ mf mm out name hrest h]
          exact findAssoc_setAssoc_ne acc k name df hkn
        · exact ih acc mf mm out name hrest h

theorem convertFieldsAux_mem_char :
    ∀ (dataFields : List (String × RawValue)) (acc : List (String × DocumentField))
      (modelFields : List NamedField) (modelMap : ModelMap)
      (out : List (String × DocumentField)) (name : String) (v : RawValue),
      (dataFields.map Prod.fst).Nodup →
      (name, v) ∈ dataFields →
      findAssoc acc name = none →
      convertFieldsAux acc dataFields modelFields modelMap = .ok out →
      ((findNamed modelFields name = none ∨ v.isFalsy = true) →
          findAssoc out name = none) ∧
      (∀ nf, findNamed modelFields name = some nf → v.isFalsy = false →
          convertFieldType v nf.spec modelMap = .ok (findAssoc out name)) := by
  intro dataFields
  induction dataFields with
  | nil => intro acc mf mm out name v hnd hmem hacc h; cases hmem
  | cons e rest ih =>
    obtain ⟨k, w⟩ := e
    intro acc mf mm out name v hnd hmem hacc h
    simp only [List.map_cons, List.nodup_cons] at hnd
    obtain ⟨hknotin, hndr⟩ := hnd
    rcases List.mem_cons.mp hmem with heq | hmemr
    · have h1 : name = k := congrArg Prod.fst heq
      have h2 : v = w := congrArg Prod.snd heq
      subst h1
      subst h2
      simp only [convertFieldsAux] at h
      split at h
      · rename_i hf
        refine ⟨fun _ => ?_, fun nf hf2 _ => ?_⟩
        · rw [convertFieldsAux_not_mem rest acc mf mm out name hknotin h, hacc]
        · rw [hf] at hf2; cases hf2
      · rename_i nf0 hf
        split at h
        · rename_i hfal
          refine ⟨fun _ => ?_, fun nf hf2 hfal2 => ?_⟩
          · rw [convertFieldsAux_not_mem rest acc mf mm out name hknotin h, hacc]
          · rw [hfal] at hfal2; cases hfal2
        · rename_i hfal
          rw [Bool.not_eq_true] at hfal
          split at h
          · cases h
          · rename_i df hcft
            refine ⟨fun hskip => ?_, fun nf hf2 _ => ?_⟩
            · rcases hskip with hs | hs
              · rw [hf] at hs; cases hs
              · rw [hfal] at hs; cases hs
            · rw [hf] at hf2
              injection hf2 with hf3
              subst hf3
              rw [convertFieldsAux_not_mem rest _ mf mm out name hknotin h,
                  findAssoc_setAssoc_eq]
              exact hcft
          · rename_i hcft
            refine ⟨fun hskip => ?_, fun nf hf2 _ => ?_⟩
            · rcases hskip with hs | hs
              · rw [hf] at hs; cases hs
              · rw [hfal] at hs; cases hs
            · rw [hf] at hf2
              injection hf2 with hf3
              subst hf3
              rw [convertFieldsAux_not_mem rest acc mf mm out name hknotin h, hacc]
              exact hcft
    · have hname_in : name ∈ rest.map Prod.fst :=
        List.mem_map.mpr ⟨(name, v), hmemr, rfl⟩
      have hk_ne : name ≠ k := fun he => hknotin (he ▸ hname_in)
      simp only [convertFieldsAux] at h
      split at h
      · exact ih acc mf mm out name v hndr hmemr hacc h
      · split at h
        · exact ih acc mf mm out name v hndr hmemr hacc h
        · split at h
          · cases h
          · rename_i df hcft
            refine ih _ mf mm out name v hndr hmemr ?_ h
            rw [findAssoc_setAssoc_ne acc k name df hk_ne]
            exact hacc
          · exact ih acc mf mm out name v hndr hmemr hacc h

theorem convertFieldsAux_total :
    ∀ (dataFields : List (String × RawValue)) (acc : List (String × DocumentField))
      (modelFields : List NamedField) (modelMap : ModelMap),
      (∀ name v nf, (name, v) ∈ dataFields → findNamed modelFields name = some nf →
          v.isFalsy = false → ∃ r, convertFieldType v nf.spec modelMap = .ok r) →
      ∃ out, convertFieldsAux acc dataFields modelFields modelMap = .ok out := by
  intro dataFields
  induction dataFields with
  | nil => intro acc mf mm hyp; exact ⟨acc, by simp [convertFieldsAux]⟩
  | cons e rest ih =>
    obtain ⟨k, w⟩ := e
    intro acc mf mm hyp
    have hyr : ∀ name v nf, (name, v) ∈ rest → findNamed mf name = some nf →
        v.isFalsy = false → ∃ r, convertFieldType v nf.spec mm = .ok r :=
      fun name v nf hm => hyp name v nf (List.mem_cons_of_mem _ hm)
    cases hf : findNamed mf k with
    | none =>
      obtain ⟨out, hout⟩ := ih acc mf mm hyr
      exact ⟨out, by simp only [convertFieldsAux]; rw [hf]; exact hout⟩
    | some nf =>
      cases hfal : w.isFalsy with
      | true =>
        obtain ⟨out, hout⟩ := ih acc mf mm hyr
        exact ⟨out, by simp only [convertFieldsAux]; rw [hf]; simp [hfal]; exact hout⟩
      | false =>
        obtain ⟨r, hr⟩ := hyp k w nf (List.mem_cons_self _ _) hf hfal
        cases r with
        | some df =>
          obtain ⟨out, hout⟩ := ih (setAssoc acc k df) mf mm hyr
          exact ⟨out, by simp only [convertFieldsAux]; rw [hf]; simp [hfal, hr]; exact hout⟩
        | none =>
          obtain ⟨out, hout⟩ := ih acc mf mm hyr
          exact ⟨out, by simp only [convertFieldsAux]; rw [hf]; simp [hfal, hr]; exact hout⟩

/-- C4: in `convertFields`, a raw entry with no matching field spec or a
falsy value is silently skipped (no output entry, no error), and every
other entry's output is exactly what `convertFieldType` returns for it —
present when non-null, absent when null; conversely, if no kept entry's
conversion throws, `convertFields` succeeds. -/
theorem claim_C4 :
    (∀ (dataFields : List (String × RawValue)) (modelFields : List NamedField)
        (modelMap : ModelMap) (out : List (String × DocumentField))
        (name : String) (v : RawValue),
        (dataFields.map Prod.fst).Nodup →
        (name, v) ∈ dataFields →
        convertFields dataFields modelFields modelMap = .ok out →
        ((findNamed modelFields name = none ∨ v.isFalsy = true) →
            findAssoc out name = none) ∧
        (∀ nf, findNamed modelFields name = some nf → v.isFalsy = false →
            convertFieldType v nf.spec modelMap = .ok (findAssoc out name))) ∧
    (∀ (dataFields : List (String × RawValue)) (modelFields : List NamedField)
        (modelMap : ModelMap),
        (∀ name v nf, (name, v) ∈ dataFields → findNamed modelFields name = some nf →
            v.isFalsy = false → ∃ r, convertFieldType v nf.spec modelMap = .ok r) →
        ∃ out, convertFields dataFields modelFields modelMap = .ok out) := by
  constructor
  · intro dataFields mf mm out name v hnd hmem h
    exact convertFieldsAux_mem_char dataFields [] mf mm out name v hnd hmem rfl
      (by simpa [convertFields] using h)
  · intro dataFields mf mm hyp
    obtain ⟨out, hout⟩ := convertFieldsAux_total dataFields [] mf mm hyp
    exact ⟨out, by simpa [convertFields] using hout⟩

theorem claim_C4_witness :
    convertFields [("title", .str "Hi"), ("zz", .num 1), ("rating", .num 0)]
      [.mk "title" stringSpec, .mk "rating" (.mk "number" none [] [])] []
      = .ok [("title", .scalar "string" (.str "Hi"))] ∧
    findAssoc [("title", DocumentField.scalar "string" (.str "Hi"))] "zz" = none ∧
    findAssoc [("title", DocumentField.scalar "string" (.str "Hi"))] "rating" = none ∧
    convertFieldType (.str "Hi") stringSpec []
      = .ok (findAssoc [("title", DocumentField.scalar "string" (.str "Hi"))] "title") :=
  have hconv : convertFields [("title", .str "Hi"), ("zz", .num 1), ("rating", .num 0)]
      [.mk "title" stringSpec, .mk "rating" (.mk "number" none [] [])] []
      = .ok [("title", .scalar "string" (.str "Hi"))] := by
    simp [convertFields, convertFieldsAux, findNamed, NamedField.name, NamedField.spec,
          RawValue.isFalsy, convertFieldType, scalarTypeTags, stringSpec, FieldSpec.type,
          setAssoc, List.find?]
  ⟨hconv,
   (claim_C4.1 _ _ [] _ "zz" (.num 1) (by decide) (.tail _ (.head _)) hconv).1
     (Or.inl rfl),
   (claim_C4.1 _ _ [] _ "rating" (.num 0) (by decide) (.tail _ (.tail _ (.head _)))
     hconv).1 (Or.inr rfl),
   (claim_C4.1 _ _ [] _ "title" (.str "Hi") (by decide) (.head _) hconv).2
     (.mk "title" stringSpec) rfl rfl⟩

theorem scalarWrap_roundtrip (s : FieldSpec) (modelMap : ModelMap)
    (hs : scalarTypeTags.contains s.type = true ∨ s.type = "reference") (x : RawValue) :
    ∃ df uf, convertFieldType x s modelMap = .ok (some df) ∧
      toUpdateField df = some uf ∧
      ∀ cs : Option FieldSpec, mapUpdateOperationToValue uf modelMap cs = .ok x := by
  rcases hs with hs | hs
  · have hmem : s.type ∈ scalarTypeTags := by simpa using hs
    refine ⟨.scalar s.type x, .scalar s.type x, ?_, ?_, ?_⟩
    · simp [convertFieldType, hs, hmem]
    · simp [toUpdateField]
    · intro cs; simp [mapUpdateOperationToValue]
  · refine ⟨.reference "document" x, .reference x, ?_, ?_, ?_⟩
    · simp [convertFieldType, hs, scalarTypeTags]
    · simp [toUpdateField]
    · intro cs; simp [mapUpdateOperationToValue]

theorem listWrap_roundtrip (s : FieldSpec) (modelMap : ModelMap)
    (hs : scalarTypeTags.contains s.type = true ∨ s.type = "reference") :
    ∀ xs : List RawValue, ∃ dfs ufs,
      convertListItems xs (.one s) modelMap = .ok dfs ∧
      toUpdateFieldItems dfs = some ufs ∧
      ∀ lm, mapUOItems ufs lm modelMap = .ok xs := by
  intro xs
  induction xs with
  | nil =>
    exact ⟨[], [], by simp [convertListItems], by simp [toUpdateFieldItems],
           fun lm => by simp [mapUOItems]⟩
  | cons x xs ih =>
    obtain ⟨dfs, ufs, h1, h2, h3⟩ := ih
    obtain ⟨df, uf, hc, ht, hmrev⟩ := scalarWrap_roundtrip s modelMap hs x
    refine ⟨df :: dfs, uf :: ufs, ?_, ?_, ?_⟩
    · simp [convertListItems, hc, h1]
    · simp [toUpdateFieldItems, ht, h2]
    · intro lm
      simp [mapUOItems, hmrev, h3 lm]

/-- C1 (amended): the forward-then-reverse round trip restores the
original raw value for scalar-like and `reference` field types, and for
`list` fields whose item spec is absent (default string) or a single
scalar-like/`reference` spec.  It does not hold for the claim's other
types: an `object` field errors in the reverse mapper (see the
counterexample and C2), and a `model` field does not restore stripped
`id`/`type` keys or skipped raw fields. -/
theorem claim_C1_amended :
    (∀ (spec : FieldSpec) (modelMap : ModelMap) (v : RawValue),
        scalarTypeTags.contains spec.type = true ∨ spec.type = "reference" →
        ∃ df uf, convertFieldType v spec modelMap = .ok (some df) ∧
          toUpdateField df = some uf ∧
          mapUpdateOperationToValue uf modelMap (some spec) = .ok v) ∧
    (∀ (spec s : FieldSpec) (modelMap : ModelMap) (xs : List RawValue),
        spec.type = "list" →
        ((spec.items = none ∧ s = stringSpec) ∨ spec.items = some (.one s)) →
        (scalarTypeTags.contains s.type = true ∨ s.type = "reference") →
        ∃ df uf, convertFieldType (.arr xs) spec modelMap = .ok (some df) ∧
          toUpdateField df = some uf ∧
          mapUpdateOperationToValue uf modelMap (some spec) = .ok (.arr xs)) := by
  constructor
  · intro spec mm v hs
    obtain ⟨df, uf, hc, ht, hm⟩ := scalarWrap_roundtrip spec mm hs v
    exact ⟨df, uf, hc, ht, hm (some spec)⟩
  · intro spec s mm xs htype hitems hs
    obtain ⟨dfs, ufs, h1, h2, h3⟩ := listWrap_roundtrip s mm hs xs
    have hres : spec.items.getD (.one stringSpec) = .one s := by
      rcases hitems with ⟨hi1, hi2⟩ | hi1
      · simp [hi1, hi2]
      · simp [hi1]
    refine ⟨.list dfs, .list ufs, ?_, ?_, ?_⟩
    · simp [convertFieldType, htype, scalarTypeTags, convertListField, hres, h1]
    · simp [toUpdateField, h2]
    · simp [mapUpdateOperationToValue, htype, h3]

/-- C1 (counterexample): an object-typed field with one child converts
forward fine, but mapping the identical typed value back through the
reverse mapper yields a ReferenceError, not the original raw value (the
`result`/`object` slip of the source's `'object'` case; see C2). -/
theorem claim_C1_counterexample :
    convertFieldType (.obj [("a", .str "x")]) (.mk "object" none [.mk "a" stringSpec] []) []
      = .ok (some (.object [("a", .scalar "string" (.str "x"))])) ∧
    toUpdateField (.object [("a", .scalar "string" (.str "x"))])
      = some (.object [("a", .scalar "string" (.str "x"))]) ∧
    mapUpdateOperationToValue (.object [("a", .scalar "string" (.str "x"))]) []
      (some (.mk "object" none [.mk "a" stringSpec] []))
      = .error .referenceError ∧
    mapUpdateOperationToValue (.object [("a", .scalar "string" (.str "x"))]) []
      (some (.mk "object" none [.mk "a" stringSpec] []))
      ≠ .ok (.obj [("a", .str "x")]) := by
  have h3 : mapUpdateOperationToValue
      (.object [("a", UpdateOperationField.scalar "string" (.str "x"))]) []
      (some (.mk "object" none [.mk "a" stringSpec] [])) = .error .referenceError := by
    simp [mapUpdateOperationToValue, findNamed, NamedField.name, NamedField.spec,
          FieldSpec.fields, stringSpec]
  refine ⟨?_, ?_, h3, ?_⟩
  · simp [convertFieldType, convertObjectField, jsEntries, FieldSpec.type,
          FieldSpec.fields, scalarTypeTags, convertFields, convertFieldsAux,
          findNamed, NamedField.name, NamedField.spec, RawValue.isFalsy,
          stringSpec, setAssoc, List.find?]
  · simp [toUpdateField, toUpdateFieldEntries]
  · rw [h3]; simp

theorem claim_C1_witness :
    (∃ df uf, convertFieldType (.num 7) (.mk "string" none [] []) [] = .ok (some df) ∧
        toUpdateField df = some uf ∧
        mapUpdateOperationToValue uf [] (some (.mk "string" none [] [])) = .ok (.num 7)) ∧
    (∃ df uf, convertFieldType (.arr [.str "a", .num 2]) (.mk "list" none [] []) []
          = .ok (some df) ∧
        toUpdateField df = some uf ∧
        mapUpdateOperationToValue uf [] (some (.mk "list" none [] []))
          = .ok (.arr [.str "a", .num 2])) :=
  ⟨claim_C1_amended.1 (.mk "string" none [] []) [] (.num 7) (Or.inl (by decide)),
   claim_C1_amended.2 (.mk "list" none [] []) stringSpec [] [.str "a", .num 2] rfl
     (Or.inl ⟨rfl, rfl⟩) (Or.inl (by decide))⟩

theorem parseIndex?_eq_some {s : String} {n : Nat} (h : parseIndex? s = some n) :
    s = toString n := by
  unfold parseIndex? at h
  split at h
  · rename_i m hm
    split at h
    · rename_i hts
      injection h with h2
      subst h2
      exact hts.symm
    · cases h
  · cases h

theorem setNth_getD_eq : ∀ (n : Nat) (xs : List RawValue) (x : RawValue),
    (setNth xs n x).getD n .undefined = x := by
  intro n
  induction n with
  | zero => intro xs x; cases xs <;> simp [setNth]
  | succ m ih =>
    intro xs x
    cases xs <;> simp only [setNth, List.getD_cons_succ] <;> exact ih _ x

theorem setNth_getD_ne : ∀ (n m : Nat) (xs : List RawValue) (x : RawValue), m ≠ n →
    (setNth xs n x).getD m .undefined = xs.getD m .undefined := by
  intro n
  induction n with
  | zero =>
    intro m xs x hm
    cases xs with
    | nil =>
      cases m with
      | zero => cases hm rfl
      | succ mm => simp [setNth]
    | cons y ys =>
      cases m with
      | zero => cases hm rfl
      | succ mm => simp [setNth]
  | succ nn ih =>
    intro m xs x hm
    cases xs with
    | nil =>
      cases m with
      | zero => simp [setNth]
      | succ mm =>
        have hmn : mm ≠ nn := fun hh => hm (congrArg Nat.succ hh)
        simp only [setNth, List.getD_cons_succ]
        rw [ih mm [] x hmn]
        simp
    | cons y ys =>
      cases m with
      | zero => simp [setNth]
      | succ mm =>
        have hmn : mm ≠ nn := fun hh => hm (congrArg Nat.succ hh)
        simp only [setNth, List.getD_cons_succ]
        exact ih mm ys x hmn

theorem getProp_congr (v : RawValue) {a b : PKey} (h : a.propKey = b.propKey) :
    getProp v a = getProp v b := by
  cases v <;> simp [getProp, h]

theorem getProp_nonContainer (v : RawValue) (h : v.isContainer = false) (k : PKey) :
    getProp v k = .undefined := by
  cases v <;> simp_all [getProp, RawValue.isContainer]

theorem getProp_setProp_ne (v : RawValue) (a b : PKey) (x : RawValue)
    (h : a.propKey ≠ b.propKey) : getProp (setProp v a x) b = getProp v b := by
  cases v with
  | obj kvs =>
    simp only [setProp, getProp]
    rw [findAssoc_setAssoc_ne kvs a.propKey b.propKey x (Ne.symm h)]
  | arr xs =>
    cases hpi : parseIndex? a.propKey with
    | none => simp [setProp, hpi]
    | some n =>
      simp only [setProp, hpi, getProp]
      cases hpb : parseIndex? b.propKey with
      | none => rfl
      | some m =>
        have hmn : m ≠ n := by
          intro he
          subst he
          exact h ((parseIndex?_eq_some hpi).trans (parseIndex?_eq_some hpb).symm)
        exact setNth_getD_ne n m xs x hmn
  | _ => rfl

theorem getProp_setProp_same (v : RawValue) (a b : PKey) (x : RawValue)
    (h : a.propKey = b.propKey) :
    getProp (setProp v a x) b = x ∨ setProp v a x = v := by
  cases v with
  | obj kvs =>
    left
    simp only [setProp, getProp, ← h]
    rw [findAssoc_setAssoc_eq kvs a.propKey x]
    rfl
  | arr xs =>
    cases hpi : parseIndex? a.propKey with
    | none => right; simp [setProp, hpi]
    | some n =>
      left
      simp only [setProp, hpi, getProp, ← h, hpi]
      exact setNth_getD_eq n xs x
  | _ => right; rfl

theorem lgetGo_fresh_eq_nonContainer (child fresh : RawValue)
    (hcc : child.isContainer = false) (hf : fresh = .arr [] ∨ fresh = .obj [])
    (p2 : List PKey) (hp2 : p2 ≠ []) :
    lgetGo fresh p2 = lgetGo child p2 := by
  cases p2 with
  | nil => cases hp2 rfl
  | cons a as =>
    simp only [lgetGo]
    have h1 : getProp fresh a = .undefined := by
      rcases hf with rfl | rfl
      · simp only [getProp]
        cases parseIndex? a.propKey <;> simp
      · simp [getProp, findAssoc, List.find?]
    rw [h1, getProp_nonContainer child hcc a]

theorem childBase_isContainer (v : RawValue) (k k2 : PKey) :
    (childBase v k k2).isContainer = true := by
  unfold childBase
  split_ifs with h1 h2
  · exact h1
  · rfl
  · rfl

theorem lgetGo_childBase (v : RawValue) (k k2 : PKey) (p2 : List PKey) (hp2 : p2 ≠ []) :
    lgetGo (childBase v k k2) p2 = lgetGo (getProp v k) p2 := by
  unfold childBase
  split_ifs with h1 h2
  · rfl
  · exact lgetGo_fresh_eq_nonContainer (getProp v k) (.arr [])
      (Bool.not_eq_true _ ▸ h1) (Or.inl rfl) p2 hp2
  · exact lgetGo_fresh_eq_nonContainer (getProp v k) (.obj [])
      (Bool.not_eq_true _ ▸ h1) (Or.inr rfl) p2 hp2

theorem lget_lset_diverge :
    ∀ (path p : List PKey) (data x : RawValue),
      pathsDiverge path p = true →
      lget (lset data path x) p = lget data p := by
  intro path
  induction path with
  | nil => intro p data x h; simp [pathsDiverge] at h
  | cons k path ih =>
    intro p data x h
    cases p with
    | nil => simp [pathsDiverge] at h
    | cons pk ps =>
      by_cases hc : data.isContainer = true
      case neg =>
        simp only [lset]
        rw [if_neg hc]
      case pos =>
        simp only [lset]
        rw [if_pos hc]
        cases path with
        | nil =>
          have hk : k.propKey ≠ pk.propKey := by
            intro he
            simp [pathsDiverge, he] at h
          simp only [lsetGo, lget, lgetGo]
          rw [getProp_setProp_ne data k pk x hk]
        | cons k2 rest =>
          by_cases he : k.propKey = pk.propKey
          · have htail : pathsDiverge (k2 :: rest) ps = true := by
              simpa [pathsDiverge, he] using h
            cases ps with
            | nil => simp [pathsDiverge] at htail
            | cons pk2 ps2 =>
              simp only [lsetGo, lget, lgetGo]
              rcases getProp_setProp_same data k pk
                  (lsetGo (childBase data k k2) (k2 :: rest) x) he with hgs | hunch
              · rw [hgs]
                rw [show getProp data pk = getProp data k from getProp_congr data he.symm]
                have hih := ih (pk2 :: ps2) (childBase data k k2) x htail
                simp only [lset, childBase_isContainer, if_true, lget, lgetGo] at hih
                rw [hih]
                have hcb := lgetGo_childBase data k k2 (pk2 :: ps2) (List.cons_ne_nil _ _)
                simp only [lgetGo] at hcb
                exact hcb
              · rw [hunch]
          · simp only [lsetGo, lget, lgetGo]
            rw [getProp_setProp_ne data k pk _ he]

/-- C10: a `set` operation leaves every independent location of the
record unchanged: reading any path that diverges from the operation's
field path yields the same value before and after the update. -/
theorem claim_C10 (data : RawValue) (fieldPath : List PKey)
    (field : UpdateOperationField) (modelField : Option FieldSpec)
    (modelMap : ModelMap) (data2 : RawValue) (p : List PKey)
    (happ : applyOperation data (.set fieldPath field modelField) modelMap = .ok data2)
    (hdiv : pathsDiverge fieldPath p = true) :
    lget data2 p = lget data p := by
  simp only [applyOperation] at happ
  split at happ
  · cases happ
  · rename_i value hmap
    injection happ with happ2
    subst happ2
    exact lget_lset_diverge fieldPath p data value hdiv

theorem claim_C10_witness :
    applyOperation (.obj [("a", .num 1), ("b", .num 2)])
      (.set [.str "a"] (.scalar "string" (.str "z")) none) []
      = .ok (.obj [("a", .str "z"), ("b", .num 2)]) ∧
    pathsDiverge [.str "a"] [.str "b"] = true ∧
    lget (.obj [("a", .str "z"), ("b", .num 2)]) [.str "b"]
      = lget (.obj [("a", .num 1), ("b", .num 2)]) [.str "b"] :=
  have happ : applyOperation (.obj [("a", .num 1), ("b", .num 2)])
      (.set [.str "a"] (.scalar "string" (.str "z")) none) []
      = .ok (.obj [("a", .str "z"), ("b", .num 2)]) := by
    simp [applyOperation, mapUpdateOperationToValue, lset, lsetGo, setProp,
          RawValue.isContainer, setAssoc, PKey.propKey]
  ⟨happ, rfl,
   claim_C10 (.obj [("a", .num 1), ("b", .num 2)]) [.str "a"]
     (.scalar "string" (.str "z")) none [] (.obj [("a", .str "z"), ("b", .num 2)])
     [.str "b"] happ rfl⟩
